import Mathlib

/-!
Verification of the certificate lookup tree, hostname wildcard matcher and
session-ticket callback of `shrpx_ssl.cc` (TLS context management and
SNI-based certificate dispatch of an HTTP/2 reverse proxy).

Bytes are modelled as `Nat` (the C code works on `char` values); hostnames
and patterns are `List Nat`.  TLS context handles (`SSL_CTX*`) are opaque
and modelled as `Nat`; a node's possibly-null `ssl_ctx` field is an
`Option Nat`.  The C `int` cursors that scan hostnames from the rightmost
character down to `-1` are modelled as `Int`.  The recursive insertion and
lookup of the tree are modelled with an explicit fuel parameter (`none`
meaning the fuel ran out); the fuel supplied by the top-level wrappers is
proved sufficient for every tree built by insertions from a fresh tree.
-/

/-- Modelled from the spec: ASCII lowercase folding (`util::lowcase`,
not under `src/`): the byte values of `'A'`..`'Z'` (65..90) are shifted
to `'a'`..`'z'` by adding 32; every other byte is unchanged. -/
def lowcase (b : Nat) : Nat :=
  if 65 ≤ b ∧ b ≤ 90 then b + 32 else b

/-- Modelled from the spec: case-insensitive ASCII string equality
(`util::strieq`, not under `src/`). -/
def strieq (a b : List Nat) : Bool :=
  a.map lowcase == b.map lowcase

/-- Modelled from the spec: case-insensitive "starts with"
(`util::istartsWith`, not under `src/`): the second range is a
case-insensitive prefix of the first. -/
def istartsWith (a b : List Nat) : Bool :=
  (a.take b.length).map lowcase == b.map lowcase

/-- Modelled from the spec: case-insensitive "ends with"
(`util::iendsWith`, not under `src/`): the second range is a
case-insensitive suffix of the first. -/
def iendsWith (a b : List Nat) : Bool :=
  decide (b.length ≤ a.length) &&
    ((a.drop (a.length - b.length)).map lowcase == b.map lowcase)

/-- Byte values of a string literal, for readable concrete inputs. -/
def bytes (s : String) : List Nat :=
  s.data.map Char.toNat

/-- `strchr(s, c)` as an index: position of the first occurrence of the
byte `c` in `s`, if any. -/
def strchr (c : Nat) : List Nat → Option Nat
  | [] => none
  | b :: rest =>
    if b = c then some 0
    else
      match strchr c rest with
      | none => none
      | some k => some (k + 1)

/-- `tls_hostname_match(pattern, hostname)` from `shrpx_ssl.cc`:
RFC 6125 wildcard matching.  `42` is `'*'`, `46` is `'.'`,
`[120, 110, 45, 45]` is `"xn--"`.  The `strchr` calls return indices;
pointer differences become index comparisons. -/
def tls_hostname_match (pattern hostname : List Nat) : Bool :=
  match strchr 42 pattern with
  | none => strieq pattern hostname
  | some ptWildcard =>
    match strchr 46 pattern with
    | none =>
      -- no dot in the pattern: wildcard match is disabled
      strieq pattern hostname
    | some ptLeftLabelEnd =>
      if (strchr 46 (pattern.drop (ptLeftLabelEnd + 1))).isNone
          || decide (ptLeftLabelEnd < ptWildcard)
          || istartsWith pattern [120, 110, 45, 45] then
        strieq pattern hostname
      else
        match strchr 46 hostname with
        | none => false
        | some hnLeftLabelEnd =>
          if !(strieq (pattern.drop ptLeftLabelEnd)
                (hostname.drop hnLeftLabelEnd)) then
            false
          else if hnLeftLabelEnd < ptLeftLabelEnd then
            false
          else
            istartsWith (hostname.take hnLeftLabelEnd)
                (pattern.take ptWildcard) &&
              iendsWith (hostname.take hnLeftLabelEnd)
                ((pattern.take ptLeftLabelEnd).drop (ptWildcard + 1))

/-- A node of the certificate lookup tree (`CertNode` in `shrpx_ssl.cc`).
The edge label is `str[last+1 .. first]` read right to left. -/
structure CertNode where
  str : List Nat
  first : Int
  last : Int
  ssl_ctx : Option Nat
  wildcard_certs : List (List Nat × Nat)
  next : List CertNode

/-- The certificate lookup tree: root node plus the owned list of
lowercased hostname buffers. -/
structure CertLookupTree where
  root : CertNode
  hosts : List (List Nat)

/-- Character of `s` at (possibly negative) index `i`; the C code only
dereferences in-bounds non-negative indices, so the default `0` is never
read on the guarded paths. -/
def cAt (s : List Nat) (i : Int) : Nat :=
  if 0 ≤ i then s.getD i.toNat 0 else 0

/-- First byte of a node's edge, `node->str[node->first]`. -/
def headChar (n : CertNode) : Nat :=
  cAt n.str n.first

/-- `cert_lookup_tree_new` from `shrpx_ssl.cc`: a root with an empty
edge (`first = last = 0`), no context, no wildcards, no children. -/
def cert_lookup_tree_new : CertLookupTree :=
  { root := { str := [], first := 0, last := 0, ssl_ctx := none,
              wildcard_certs := [], next := [] },
    hosts := [] }

/-- The child-selection loop of `shrpx_ssl.cc`: first child whose edge
begins with byte `c`, together with its position in the list. -/
def findChild (c : Nat) : List CertNode → Option (Nat × CertNode)
  | [] => none
  | cn :: rest =>
    if headChar cn = c then some (0, cn)
    else
      match findChild c rest with
      | none => none
      | some (k, n) => some (k + 1, n)

/-- Structurally fueled body of the edge-comparison loop; `walk` below
passes exactly enough fuel, so `walk_eq` recovers the loop equation. -/
def walkAux (f : Nat → Nat) (s : List Nat) (last : Int) (h : List Nat) :
    Nat → Int → Int → Int × Int
  | 0, i, j => (i, j)
  | Nat.succ n, i, j =>
    if last < i ∧ 0 ≤ j ∧ cAt s i = f (cAt h j) then
      walkAux f s last h n (i - 1) (j - 1)
    else
      (i, j)

/-- The inward edge-comparison loop shared by insertion and lookup:
`while (i > last && j >= 0 && s[i] == f(h[j])) { --i; --j; }`, returning
the final `(i, j)`.  Insertion uses `f = id`, lookup folds each queried
byte with `f = lowcase`.  The loop runs at most `(i - last).toNat` times
because `i` decreases towards `last`. -/
def walk (f : Nat → Nat) (s : List Nat) (last : Int) (h : List Nat)
    (i j : Int) : Int × Int :=
  walkAux f s last h (i - last).toNat i j

/-- Structurally fueled body of the wildcard scan; `scanStar` passes
exactly enough fuel, so `scanStar_eq` recovers the loop equation. -/
def scanStarAux (h : List Nat) : Nat → Int → Int
  | 0, j => j
  | Nat.succ n, j =>
    if 0 ≤ j ∧ cAt h j ≠ 42 then scanStarAux h n (j - 1) else j

/-- The wildcard scan of Case A of the insertion:
`for (j = offset; j >= 0 && hostname[j] != '*'; --j);`. -/
def scanStar (h : List Nat) (j : Int) : Int :=
  scanStarAux h (j + 1).toNat j

/-- The recursive `cert_lookup_tree_add_cert(lt, node, ssl_ctx, hostname,
len, offset)` of `shrpx_ssl.cc`, with explicit fuel (`none` = fuel ran
out; the wrappers pass fuel proved sufficient).  The function returns the
updated node. -/
def cert_lookup_tree_add_cert_node (fuel : Nat) (node : CertNode)
    (ssl_ctx : Nat) (hostname : List Nat) (offset : Int) :
    Option CertNode :=
  match fuel with
  | 0 => none
  | Nat.succ fuel =>
    let c := cAt hostname offset
    match findChild c node.next with
    | none =>
      if c = 42 then
        -- wildcard byte reached: record the pattern on this node
        some { node with
               wildcard_certs := node.wildcard_certs ++ [(hostname, ssl_ctx)] }
      else
        let j := scanStar hostname offset
        let newNode : CertNode :=
          { str := hostname, first := offset, last := j,
            ssl_ctx := if j = -1 then some ssl_ctx else none,
            wildcard_certs := if j = -1 then [] else [(hostname, ssl_ctx)],
            next := [] }
        some { node with next := node.next ++ [newNode] }
    | some (idx, cn) =>
      let p := walk id cn.str cn.last hostname cn.first offset
      if p.1 = cn.last then
        if p.2 = -1 then
          -- same hostname: do not overwrite an existing ssl_ctx
          let cn' := if cn.ssl_ctx.isSome then cn
                     else { cn with ssl_ctx := some ssl_ctx }
          some { node with next := node.next.set idx cn' }
        else
          match cert_lookup_tree_add_cert_node fuel cn ssl_ctx hostname p.2 with
          | none => none
          | some cn' => some { node with next := node.next.set idx cn' }
      else
        let newNode : CertNode :=
          { str := cn.str, first := p.1, last := cn.last,
            ssl_ctx := cn.ssl_ctx, wildcard_certs := cn.wildcard_certs,
            next := cn.next }
        let cn2 : CertNode :=
          { cn with last := p.1, wildcard_certs := [], next := [newNode] }
        if p.2 = -1 then
          some { node with next := node.next.set idx { cn2 with ssl_ctx := some ssl_ctx } }
        else
          match cert_lookup_tree_add_cert_node fuel
              { cn2 with ssl_ctx := none } ssl_ctx hostname p.2 with
          | none => none
          | some cn' => some { node with next := node.next.set idx cn' }

/-- The public `cert_lookup_tree_add_cert(lt, ssl_ctx, hostname, len)`:
an empty hostname is a no-op; otherwise the lowercased copy is appended
to `hosts` and inserted starting at the rightmost character. -/
def cert_lookup_tree_add_cert (lt : CertLookupTree) (ssl_ctx : Nat)
    (hostname : List Nat) : CertLookupTree :=
  if hostname.length = 0 then lt
  else
    let host_copy := hostname.map lowcase
    let lt' := { lt with hosts := lt.hosts ++ [host_copy] }
    match cert_lookup_tree_add_cert_node (hostname.length + 2) lt'.root
        ssl_ctx host_copy ((hostname.length : Int) - 1) with
    | some root' => { lt' with root := root' }
    | none => lt'

/-- The recursive `cert_lookup_tree_lookup(lt, node, hostname, len,
offset)` of `shrpx_ssl.cc`, with explicit fuel.  The inner `Option Nat`
is the returned `SSL_CTX*` (possibly null). -/
def cert_lookup_tree_lookup_node (fuel : Nat) (node : CertNode)
    (hostname : List Nat) (offset : Int) : Option (Option Nat) :=
  match fuel with
  | 0 => none
  | Nat.succ fuel =>
    let p := walk lowcase node.str node.last hostname node.first offset
    if p.1 ≠ node.last then
      some none
    else if p.2 = -1 then
      -- hostname exhausted: exact slot only, a wildcard-only node does
      -- not match because '*' must match at least one character
      some node.ssl_ctx
    else
      match node.wildcard_certs.find?
          (fun wc => tls_hostname_match wc.1 hostname) with
      | some wc => some (some wc.2)
      | none =>
        let c := lowcase (cAt hostname p.2)
        match findChild c node.next with
        | some q => cert_lookup_tree_lookup_node fuel q.2 hostname p.2
        | none => some none

/-- The public `cert_lookup_tree_lookup(lt, hostname, len)`. -/
def cert_lookup_tree_lookup (lt : CertLookupTree) (hostname : List Nat) :
    Option Nat :=
  match cert_lookup_tree_lookup_node (hostname.length + 2) lt.root hostname
      ((hostname.length : Int) - 1) with
  | some r => r
  | none => none

/-- A tree built by a sequence of insertions from a fresh tree. -/
def buildTree (ops : List (List Nat × Nat)) : CertLookupTree :=
  ops.foldl (fun t p => cert_lookup_tree_add_cert t p.2 p.1)
    cert_lookup_tree_new

/-- A session-ticket key record: 16-byte name, AES key, HMAC key
(layout from the spec's ticket key record, `TicketKeys` itself is not
under `src/`). -/
structure TicketKey where
  name : List Nat
  aes_key : List Nat
  hmac_key : List Nat
deriving DecidableEq

/-- The decrypt-branch search loop of `ticket_key_cb` in `shrpx_ssl.cc`,
modelled literally including its bug: each iteration compares
`keys[0].name` (not `keys[i].name`) against the presented name.
`fuel = keys.length - i` is passed by the caller, so fuel `0` is the
loop exit `i == keys.size()`. -/
def ticket_search (keys : List TicketKey) (key_name : List Nat) :
    Nat → Nat → Nat
  | 0, i => i
  | Nat.succ n, i =>
    if (keys.getD 0 ⟨[], [], []⟩).name == key_name then i
    else ticket_search keys key_name n (i + 1)

/-- The decrypt branch of `ticket_key_cb` (`enc == 0`): search the ring,
return `0` on miss, else initialise HMAC/decrypt from `keys[i]` (the
second component records which key was selected) and return `1` for the
primary key, `2` otherwise. -/
def ticket_key_cb_decrypt (keys : List TicketKey) (key_name : List Nat) :
    Int × Option TicketKey :=
  let i := ticket_search keys key_name keys.length 0
  if i = keys.length then (0, none)
  else ((if i = 0 then 1 else 2), some (keys.getD i ⟨[], [], []⟩))

/-- `ticket_key_cb` from `shrpx_ssl.cc` as a function of the key ring,
the direction flag and the presented key name.  The returned pair is
(return value, key used for the cipher/HMAC initialisation).  The
encrypt branch models the success path of `RAND_bytes` and uses
`keys[0]`. -/
def ticket_key_cb (ticket_keys : Option (List TicketKey)) (enc : Bool)
    (key_name : List Nat) : Int × Option TicketKey :=
  match ticket_keys with
  | none => (-1, none)
  | some keys =>
    if enc then (1, some (keys.getD 0 ⟨[], [], []⟩))
    else ticket_key_cb_decrypt keys key_name

/-- The structural invariant of the lookup tree maintained by insertion:
at every node, each child has a non-empty edge (`last < first`) and the
first bytes of the child edges are pairwise distinct. -/
inductive TreeInv : CertNode → Prop where
  | mk (n : CertNode)
      (edges : ∀ c ∈ n.next, c.last < c.first)
      (heads : (n.next.map headChar).Nodup)
      (children : ∀ c ∈ n.next, TreeInv c) : TreeInv n

/-!  ## Theorems  -/

/-- The loop equation of `walk`. -/
theorem walk_eq (f : Nat → Nat) (s : List Nat) (last : Int) (h : List Nat)
    (i j : Int) :
    walk f s last h i j =
      if last < i ∧ 0 ≤ j ∧ cAt s i = f (cAt h j) then
        walk f s last h (i - 1) (j - 1)
      else
        (i, j) := by
  unfold walk
  rcases hn : (i - last).toNat with _ | n
  · have : ¬ last < i := by omega
    simp [walkAux, this]
  · have h1 : (i - 1 - last).toNat = n := by omega
    simp [walkAux, h1]

/-- The loop equation of `scanStar`. -/
theorem scanStar_eq (h : List Nat) (j : Int) :
    scanStar h j =
      if 0 ≤ j ∧ cAt h j ≠ 42 then scanStar h (j - 1) else j := by
  unfold scanStar
  rcases hn : (j + 1).toNat with _ | n
  · have : ¬ 0 ≤ j := by omega
    simp [scanStarAux, this]
  · have h1 : j.toNat = n := by omega
    simp [scanStarAux, h1]

/-- Closed form of the buggy search loop: because every iteration
compares `keys[0].name`, the loop either breaks immediately at `i` or
runs to the end. -/
theorem ticket_search_eq (keys : List TicketKey) (key_name : List Nat)
    (fuel i : Nat) :
    ticket_search keys key_name fuel i =
      if (keys.getD 0 ⟨[], [], []⟩).name == key_name then i
      else i + fuel := by
  induction fuel generalizing i with
  | zero => simp [ticket_search]
  | succ n ih =>
    show (if (keys.getD 0 ⟨[], [], []⟩).name == key_name then i
          else ticket_search keys key_name n (i + 1)) = _
    rw [ih]
    cases hb : (keys.getD 0 ⟨[], [], []⟩).name == key_name
    · simp only [Bool.false_eq_true, if_false]
      omega
    · simp

theorem lowcase_idem (b : Nat) : lowcase (lowcase b) = lowcase b := by
  by_cases hb : 65 ≤ b ∧ b ≤ 90
  · have h2 : ¬ (65 ≤ b + 32 ∧ b + 32 ≤ 90) := by omega
    simp only [lowcase, if_pos hb, if_neg h2]
  · simp only [lowcase, if_neg hb]

theorem lowcase_zero : lowcase 0 = 0 := by decide

/-- Lowercasing does not move dots: a byte folds to `'.'` iff it is `'.'`. -/
theorem lowcase_eq_dot (b : Nat) : lowcase b = 46 ↔ b = 46 := by
  simp only [lowcase]
  split <;> omega

theorem map_lowcase_idem (s : List Nat) :
    (s.map lowcase).map lowcase = s.map lowcase := by
  induction s with
  | nil => rfl
  | cons b rest ih => simp [lowcase_idem, ih]

theorem strieq_lower_self (H : List Nat) :
    strieq (H.map lowcase) H = true := by
  simp [strieq, map_lowcase_idem, lowcase_idem]

theorem cAt_map_lowcase (H : List Nat) (i : Int) :
    cAt (H.map lowcase) i = lowcase (cAt H i) := by
  unfold cAt
  split
  · rw [List.getD_eq_getElem?_getD, List.getD_eq_getElem?_getD,
      List.getElem?_map]
    rcases H[i.toNat]? with _ | b <;> simp [lowcase_zero]
  · exact lowcase_zero.symm

/-- If every byte of `s` is the `f`-image of the corresponding byte of
`t`, the edge walk started at equal cursors runs all the way down to
`last` on both sides. -/
theorem walk_self (f : Nat → Nat) (s t : List Nat)
    (hf : ∀ k : Int, 0 ≤ k → cAt s k = f (cAt t k)) (last : Int) :
    ∀ i : Int, last ≤ i → -1 ≤ last → walk f s last t i i = (last, last) := by
  intro i hli hl
  generalize hn : (i - last).toNat = n
  induction n generalizing i with
  | zero =>
    have hi : i = last := by omega
    subst hi
    rw [walk_eq]
    simp
  | succ n ih =>
    have hlt : last < i := by omega
    rw [walk_eq, if_pos ⟨hlt, by omega, hf i (by omega)⟩]
    exact ih (i - 1) (by omega) (by omega)

/-- Bounds and stopping condition of the wildcard scan. -/
theorem scanStar_spec (h : List Nat) (j : Int) (hj : -1 ≤ j) :
    scanStar h j ≤ j ∧ -1 ≤ scanStar h j ∧
      (scanStar h j = -1 ∨
        (0 ≤ scanStar h j ∧ cAt h (scanStar h j) = 42)) := by
  generalize hn : (j + 1).toNat = n
  induction n generalizing j with
  | zero =>
    have hje : j = -1 := by omega
    subst hje
    rw [scanStar_eq]
    norm_num
  | succ n ih =>
    rw [scanStar_eq]
    by_cases hc : 0 ≤ j ∧ cAt h j ≠ 42
    · rw [if_pos hc]
      obtain ⟨h1, h2, h3⟩ := ih (j - 1) (by omega) (by omega)
      exact ⟨by omega, h2, h3⟩
    · rw [if_neg hc]
      by_cases h0 : 0 ≤ j
      · have : cAt h j = 42 := by
          by_contra hne
          exact hc ⟨h0, hne⟩
        exact ⟨le_refl j, hj, Or.inr ⟨h0, this⟩⟩
      · have hje : j = -1 := by omega
        exact ⟨le_refl j, hj, Or.inl hje⟩

theorem strchr_isSome_of_mem (c : Nat) (l : List Nat) (hm : c ∈ l) :
    (strchr c l).isSome = true := by
  induction l with
  | nil => cases hm
  | cons b rest ih =>
    simp only [strchr]
    by_cases hb : b = c
    · simp [hb]
    · rcases List.mem_cons.mp hm with h | h
      · exact absurd h.symm hb
      · rcases hr : strchr c rest with _ | k
        · have := ih h
          rw [hr] at this
          cases this
        · simp [hb, hr]

theorem strchr_some (c : Nat) (l : List Nat) (i : Nat) :
    strchr c l = some i →
      i < l.length ∧ l.getD i 0 = c ∧ ∀ k < i, l.getD k 0 ≠ c := by
  induction l generalizing i with
  | nil => intro hs; cases hs
  | cons b rest ih =>
    intro hs
    simp only [strchr] at hs
    by_cases hb : b = c
    · rw [if_pos hb] at hs
      injection hs with hs
      subst hs
      refine ⟨by simp, by simpa using hb, ?_⟩
      intro k hk
      omega
    · rw [if_neg hb] at hs
      rcases hr : strchr c rest with _ | k
      · rw [hr] at hs; cases hs
      · rw [hr] at hs
        injection hs with hs
        obtain ⟨h1, h2, h3⟩ := ih k hr
        subst hs
        refine ⟨by simpa using h1, by simpa using h2, ?_⟩
        intro m hm
        rcases m with _ | m
        · simpa using hb
        · simpa using h3 m (by omega)

/-- The first dot of a list with a dot-free prefix before an explicit
dot. -/
theorem strchr_dot_append (x r : List Nat) (hx : ∀ b ∈ x, b ≠ 46) :
    strchr 46 (x ++ 46 :: r) = some x.length := by
  induction x with
  | nil => simp [strchr]
  | cons b rest ih =>
    have hb : b ≠ 46 := hx b (by simp)
    rw [List.cons_append]
    simp only [strchr, hb, if_false]
    rw [ih fun b hb => hx b (by simp [hb])]
    simp

/-- `strchr` looks for a dot through lowercase folding unchanged. -/
theorem strchr_dot_map_lowcase (H : List Nat) :
    strchr 46 (H.map lowcase) = strchr 46 H := by
  induction H with
  | nil => simp [strchr]
  | cons b rest ih =>
    by_cases hb : b = 46
    · simp [strchr, hb, lowcase_eq_dot]
    · have hb2 : lowcase b ≠ 46 := fun hc => hb ((lowcase_eq_dot b).mp hc)
      simp only [List.map_cons, strchr, hb, hb2, if_false]
      rw [ih]

theorem findChild_none_heads (c : Nat) (l : List CertNode)
    (h : findChild c l = none) : ∀ n ∈ l, headChar n ≠ c := by
  induction l with
  | nil => intro n hn; cases hn
  | cons x rest ih =>
    intro n hn
    simp only [findChild] at h
    by_cases hx : headChar x = c
    · rw [if_pos hx] at h; cases h
    · rw [if_neg hx] at h
      rcases List.mem_cons.mp hn with he | he
      · subst he; exact hx
      · rcases hr : findChild c rest with _ | p
        · exact ih hr n he
        · rw [hr] at h; cases h

theorem findChild_some (c : Nat) (l : List CertNode) :
    ∀ idx cn, findChild c l = some (idx, cn) →
      l[idx]? = some cn ∧ headChar cn = c := by
  induction l with
  | nil => intro idx cn hs; cases hs
  | cons x rest ih =>
    intro idx cn hs
    simp only [findChild] at hs
    by_cases hx : headChar x = c
    · rw [if_pos hx] at hs
      injection hs with hs
      have h1 : 0 = idx := congrArg Prod.fst hs
      have h2 : x = cn := congrArg Prod.snd hs
      subst h2
      rw [← h1]
      exact ⟨by simp, hx⟩
    · rw [if_neg hx] at hs
      rcases hr : findChild c rest with _ | p
      · rw [hr] at hs; cases hs
      · rw [hr] at hs
        rcases p with ⟨k, n⟩
        injection hs with hs
        have h1 : k + 1 = idx := congrArg Prod.fst hs
        have h2 : n = cn := congrArg Prod.snd hs
        obtain ⟨g1, g2⟩ := ih k n hr
        subst h2
        rcases idx with _ | idx
        · omega
        · have hk : k = idx := by omega
          subst hk
          exact ⟨by simpa using g1, g2⟩

/-- Replacing a list entry by an equal value is the identity. -/
theorem set_getElem?_self (l : List CertNode) (idx : Nat) (v : CertNode)
    (hv : l[idx]? = some v) : l.set idx v = l := by
  induction l generalizing idx with
  | nil => simp
  | cons x rest ih =>
    rcases idx with _ | idx
    · have hv' : x = v := by simpa using hv
      show v :: rest = x :: rest
      rw [hv']
    · have hv' : rest[idx]? = some v := by simpa using hv
      show x :: rest.set idx v = x :: rest
      rw [ih idx hv']

/-- The matcher only looks at the hostname through `lowcase`, dot
positions and lengths, so hostnames equal up to ASCII case match the
same patterns. -/
theorem tls_hostname_match_congr (p H1 H2 : List Nat)
    (hH : H1.map lowcase = H2.map lowcase) :
    tls_hostname_match p H1 = tls_hostname_match p H2 := by
  have hlen : H1.length = H2.length := by
    have := congrArg List.length hH
    simpa using this
  have hdots : strchr 46 H1 = strchr 46 H2 := by
    rw [← strchr_dot_map_lowcase H1, ← strchr_dot_map_lowcase H2, hH]
  have hstrieq : ∀ q : List Nat, strieq q H1 = strieq q H2 := by
    intro q
    simp only [strieq, hH]
  have hsdrop : ∀ (q : List Nat) (k : Nat),
      strieq q (H1.drop k) = strieq q (H2.drop k) := by
    intro q k
    simp only [strieq, List.map_drop, hH]
  have hstarts : ∀ (q : List Nat) (k : Nat),
      istartsWith (H1.take k) q = istartsWith (H2.take k) q := by
    intro q k
    simp only [istartsWith, List.map_take, hH]
  have hends : ∀ (q : List Nat) (k : Nat),
      iendsWith (H1.take k) q = iendsWith (H2.take k) q := by
    intro q k
    simp only [iendsWith, List.map_drop, List.map_take, List.length_take,
      hlen, hH]
  rcases hsw : strchr 42 p with _ | w
  · simp only [tls_hostname_match, hsw]
    exact hstrieq p
  · rcases hsp : strchr 46 p with _ | l
    · simp only [tls_hostname_match, hsw, hsp]
      exact hstrieq p
    · rcases hH2 : strchr 46 H2 with _ | hnL
      · have hH1 : strchr 46 H1 = none := by rw [hdots, hH2]
        simp only [tls_hostname_match, hsw, hsp, hH1, hH2]
        split
        · exact hstrieq p
        · rfl
      · have hH1 : strchr 46 H1 = some hnL := by rw [hdots, hH2]
        simp only [tls_hostname_match, hsw, hsp, hH1, hH2]
        split
        · exact hstrieq p
        · rw [hsdrop (p.drop l) hnL, hstarts (p.take w) hnL,
            hends ((p.take l).drop (w + 1)) hnL]

/-- A lowercased hostname, used as a pattern, matches the hostname it
came from. -/
theorem tls_hostname_match_lower_self (H : List Nat) :
    tls_hostname_match (H.map lowcase) H = true := by
  rcases hw : strchr 42 (H.map lowcase) with _ | w
  · simp only [tls_hostname_match, hw]
    exact strieq_lower_self H
  · rcases hd : strchr 46 (H.map lowcase) with _ | l
    · simp only [tls_hostname_match, hw, hd]
      exact strieq_lower_self H
    · simp only [tls_hostname_match, hw, hd]
      by_cases hdis : ((strchr 46 ((H.map lowcase).drop (l + 1))).isNone
          || decide (l < w)
          || istartsWith (H.map lowcase) [120, 110, 45, 45]) = true
      · rw [if_pos hdis]
        exact strieq_lower_self H
      · rw [if_neg hdis]
        have hdH : strchr 46 H = some l := by
          rw [← strchr_dot_map_lowcase]
          exact hd
        obtain ⟨hwb, hwat, -⟩ := strchr_some 42 _ w hw
        obtain ⟨hlb, hlat, -⟩ := strchr_some 46 _ l hd
        have hlenH : (H.map lowcase).length = H.length := by simp
        have hwle : w ≤ l := by
          rcases Nat.lt_or_ge l w with hlw | hge
          · exfalso
            apply hdis
            simp [hlw]
          · exact hge
        have hwlt : w < l := by
          rcases Nat.lt_or_ge w l with h | h
          · exact h
          · have : w = l := by omega
            rw [this, hlat] at hwat
            cases hwat
        have hstr : strieq ((H.map lowcase).drop l) (H.drop l) = true := by
          rw [← List.map_drop]
          exact strieq_lower_self _
        simp only [hdH, hstr, Bool.not_true, Bool.false_eq_true, if_false]
        rw [if_neg (lt_irrefl l)]
        have hstarts : istartsWith (H.take l) ((H.map lowcase).take w)
            = true := by
          simp only [istartsWith, List.length_take, List.map_take]
          have hm1 : min w (H.map lowcase).length = w := by omega
          rw [hm1, List.take_take]
          have hm2 : min w l = w := by omega
          rw [hm2, map_lowcase_idem]
          simp
        have hends : iendsWith (H.take l)
            (((H.map lowcase).take l).drop (w + 1)) = true := by
          simp only [iendsWith, List.length_drop, List.length_take,
            List.map_drop, List.map_take, map_lowcase_idem]
          have hm1 : min l (H.map lowcase).length = l := by omega
          have hm2 : min l H.length = l := by omega
          rw [hm1, hm2]
          have hm3 : l - (l - (w + 1)) = w + 1 := by omega
          rw [hm3]
          simp
        rw [hstarts, hends]
        rfl

theorem find?_congr_pred {α : Type} (p q : α → Bool) (l : List α)
    (h : ∀ a, p a = q a) : l.find? p = l.find? q := by
  induction l with
  | nil => rfl
  | cons x rest ih => rw [List.find?_cons, List.find?_cons, h x, ih]

/-- The edge walk only looks at the hostname through `f`. -/
theorem walk_congr (f : Nat → Nat) (s : List Nat) (last : Int)
    (H1 H2 : List Nat) (hf : ∀ k : Int, f (cAt H1 k) = f (cAt H2 k)) :
    ∀ i j : Int, walk f s last H1 i j = walk f s last H2 i j := by
  intro i j
  generalize hn : (i - last).toNat = n
  induction n generalizing i j with
  | zero =>
    have hni : ¬ last < i := by omega
    have hnc1 : ¬ (last < i ∧ 0 ≤ j ∧ cAt s i = f (cAt H1 j)) :=
      fun hcon => hni hcon.1
    have hnc2 : ¬ (last < i ∧ 0 ≤ j ∧ cAt s i = f (cAt H2 j)) :=
      fun hcon => hni hcon.1
    rw [walk_eq f s last H1 i j, walk_eq f s last H2 i j,
      if_neg hnc1, if_neg hnc2]
  | succ n ih =>
    rw [walk_eq f s last H1 i j, walk_eq f s last H2 i j, hf j]
    by_cases hc : last < i ∧ 0 ≤ j ∧ cAt s i = f (cAt H2 j)
    · rw [if_pos hc, if_pos hc]
      exact ih (i - 1) (j - 1) (by omega)
    · rw [if_neg hc, if_neg hc]

/-- The recursive lookup only looks at the queried hostname through
per-byte lowercase folding and the case-insensitive matcher. -/
theorem cert_lookup_tree_lookup_node_congr (fuel : Nat)
    (H1 H2 : List Nat) (hH : H1.map lowcase = H2.map lowcase) :
    ∀ (node : CertNode) (offset : Int),
      cert_lookup_tree_lookup_node fuel node H1 offset =
        cert_lookup_tree_lookup_node fuel node H2 offset := by
  have hcat : ∀ k : Int, lowcase (cAt H1 k) = lowcase (cAt H2 k) := by
    intro k
    rw [← cAt_map_lowcase, ← cAt_map_lowcase, hH]
  induction fuel with
  | zero => intro node offset; rfl
  | succ n ih =>
    intro node offset
    simp only [cert_lookup_tree_lookup_node]
    rw [walk_congr lowcase node.str node.last H1 H2 hcat node.first offset]
    by_cases h1 : (walk lowcase node.str node.last H2 node.first offset).1
        ≠ node.last
    · rw [if_pos h1, if_pos h1]
    · rw [if_neg h1, if_neg h1]
      by_cases h2 : (walk lowcase node.str node.last H2 node.first offset).2
          = -1
      · rw [if_pos h2, if_pos h2]
      · rw [if_neg h2, if_neg h2]
        rw [find?_congr_pred (fun wc => tls_hostname_match wc.1 H1)
          (fun wc => tls_hostname_match wc.1 H2) node.wildcard_certs
          (fun wc => tls_hostname_match_congr wc.1 H1 H2 hH)]
        rcases hfw : node.wildcard_certs.find?
            (fun wc => tls_hostname_match wc.1 H2) with _ | wc
        · simp only [hfw, hcat]
          rcases hfc : findChild
              (lowcase (cAt H2
                (walk lowcase node.str node.last H2 node.first offset).2))
              node.next with _ | q
          · simp only [hfc]
          · simp only [hfc]
            exact ih q.2 _
        · simp only [hfw]

/-- Claim C9: inserting the empty hostname into a tree leaves the tree
entirely unchanged: no buffer is appended to `hosts`, no node is created
or modified, and no context is installed. -/
theorem c9_empty_hostname_noop (lt : CertLookupTree) (ctx : Nat) :
    cert_lookup_tree_add_cert lt ctx [] = lt := rfl

/-- Claim C3: with only the wildcard registration `*.example.com → W`
(`W = 1`), `lookup("a.example.com") = W`, `lookup("a.b.example.com")`
finds no context, and `lookup("example.com")` finds no context (a
wildcard-only node does not satisfy a query that is exactly the literal
suffix). -/
theorem c3_wildcard_only_tree :
    cert_lookup_tree_lookup
        (cert_lookup_tree_add_cert cert_lookup_tree_new 1
          (bytes "*.example.com")) (bytes "a.example.com") = some 1 ∧
      cert_lookup_tree_lookup
        (cert_lookup_tree_add_cert cert_lookup_tree_new 1
          (bytes "*.example.com")) (bytes "a.b.example.com") = none ∧
      cert_lookup_tree_lookup
        (cert_lookup_tree_add_cert cert_lookup_tree_new 1
          (bytes "*.example.com")) (bytes "example.com") = none :=
  ⟨by decide, by decide, by decide⟩

/-- Claim C1, counterexample: register `*.example.com → W` (`W = 1`)
then `www.example.com → A` (`A = 2`).  The claim states that
`lookup("www.example.com")` returns `A`; in fact the code consults the
wildcard entries of the intermediate node for the suffix
`.example.com` before descending, so the lookup does not return `A`. -/
theorem c1_counterexample :
    cert_lookup_tree_lookup
      (cert_lookup_tree_add_cert
        (cert_lookup_tree_add_cert cert_lookup_tree_new 1
          (bytes "*.example.com"))
        2 (bytes "www.example.com"))
      (bytes "www.example.com") ≠ some 2 := by decide

/-- Claim C1, amended: with `*.example.com → W` (`W = 1`) registered and
then `www.example.com → A` (`A = 2`), both `lookup("www.example.com")`
and `lookup("mail.example.com")` return `W`: the wildcard entry stored
at the node of the literal suffix `.example.com` is consulted during the
descent before the exact child is reached. -/
theorem c1_wildcard_beats_deeper_exact :
    cert_lookup_tree_lookup
        (cert_lookup_tree_add_cert
          (cert_lookup_tree_add_cert cert_lookup_tree_new 1
            (bytes "*.example.com"))
          2 (bytes "www.example.com"))
        (bytes "www.example.com") = some 1 ∧
      cert_lookup_tree_lookup
        (cert_lookup_tree_add_cert
          (cert_lookup_tree_add_cert cert_lookup_tree_new 1
            (bytes "*.example.com"))
          2 (bytes "www.example.com"))
        (bytes "mail.example.com") = some 1 :=
  ⟨by decide, by decide⟩

/-- Claim C2: the decrypt branch of `ticket_key_cb` is supposed to find
the ring entry whose name matches and return `2` for a non-primary hit;
in fact the loop compares `keys[0].name` on every iteration, so with a
two-key ring and the presented name equal to `keys[1].name` the callback
returns `0` (miss), and no input at all can make it return `2`. -/
theorem c2_ticket_decrypt_key0_bug :
    ticket_key_cb
        (some [⟨List.replicate 16 0, List.replicate 16 10, List.replicate 16 20⟩,
               ⟨List.replicate 16 1, List.replicate 16 11, List.replicate 16 21⟩])
        false (List.replicate 16 1) = (0, none) ∧
      ∀ keys key_name,
        (ticket_key_cb (some keys) false key_name).1 ≠ 2 := by
  refine ⟨by decide, ?_⟩
  intro keys key_name
  have hs := ticket_search_eq keys key_name keys.length 0
  cases hb : (keys.getD 0 ⟨[], [], []⟩).name == key_name
  · rw [hb] at hs
    simp only [Bool.false_eq_true, if_false, Nat.zero_add] at hs
    simp [ticket_key_cb, ticket_key_cb_decrypt, hs]
  · rw [hb] at hs
    simp only [if_true] at hs
    simp only [ticket_key_cb, ticket_key_cb_decrypt, hs,
      Bool.false_eq_true, if_false]
    split <;> simp

/-- Claim C6: a pattern that begins with the IDN A-label `xn--` prefix
(case-insensitively) and contains a `*` never wildcard-matches: the
matcher degenerates to case-insensitive literal equality. -/
theorem c6_idn_wildcard_disabled (p h : List Nat)
    (hxn : istartsWith p [120, 110, 45, 45] = true)
    (hstar : (strchr 42 p).isSome = true) :
    tls_hostname_match p h = strieq p h := by
  rw [Option.isSome_iff_exists] at hstar
  obtain ⟨w, hw⟩ := hstar
  rcases hd : strchr 46 p with _ | l <;>
    simp [tls_hostname_match, hw, hd, hxn]

/-- Witness for C6 at a concrete IDN wildcard pattern. -/
theorem c6_idn_wildcard_disabled_witness :
    istartsWith (bytes "xn--a*.example.com") [120, 110, 45, 45] = true ∧
      (strchr 42 (bytes "xn--a*.example.com")).isSome = true ∧
      tls_hostname_match (bytes "xn--a*.example.com")
          (bytes "XN--A*.EXAMPLE.COM") =
        strieq (bytes "xn--a*.example.com") (bytes "XN--A*.EXAMPLE.COM") :=
  ⟨by decide, by decide,
    c6_idn_wildcard_disabled _ _ (by decide) (by decide)⟩

/-- Claim C7: lookup is case-insensitive in both directions: hostnames
that are equal up to ASCII case produce the same lookup result on every
tree (insertion lowercases the stored hostname; lookup folds each
queried byte during traversal without mutating the input). -/
theorem c7_lookup_case_insensitive (lt : CertLookupTree)
    (H1 H2 : List Nat) (hH : H1.map lowcase = H2.map lowcase) :
    cert_lookup_tree_lookup lt H1 = cert_lookup_tree_lookup lt H2 := by
  have hlen : H1.length = H2.length := by
    have := congrArg List.length hH
    simpa using this
  unfold cert_lookup_tree_lookup
  rw [hlen, cert_lookup_tree_lookup_node_congr (H2.length + 2) H1 H2 hH]

/-- Witness for C7: `EXAMPLE.com` and `example.COM` agree on a tree
with `example.com` registered. -/
theorem c7_lookup_case_insensitive_witness :
    (bytes "EXAMPLE.com").map lowcase = (bytes "example.COM").map lowcase ∧
      cert_lookup_tree_lookup (buildTree [(bytes "example.com", 5)])
          (bytes "EXAMPLE.com") =
        cert_lookup_tree_lookup (buildTree [(bytes "example.com", 5)])
          (bytes "example.COM") :=
  ⟨by decide,
    c7_lookup_case_insensitive (buildTree [(bytes "example.com", 5)])
      (bytes "EXAMPLE.com") (bytes "example.COM") (by decide)⟩

theorem getElem?_mem_list {α : Type} {l : List α} {n : Nat} {a : α}
    (h : l[n]? = some a) : a ∈ l := by
  obtain ⟨hlt, he⟩ := List.getElem?_eq_some.mp h
  exact he ▸ List.getElem_mem hlt

/-- Replacing a list entry by an equal value is the identity. -/
theorem set_getElem?_self_gen {α : Type} (l : List α) (idx : Nat) (v : α)
    (hv : l[idx]? = some v) : l.set idx v = l := by
  induction l generalizing idx with
  | nil => simp
  | cons x rest ih =>
    rcases idx with _ | idx
    · have hv' : x = v := by simpa using hv
      show v :: rest = x :: rest
      rw [hv']
    · have hv' : rest[idx]? = some v := by simpa using hv
      show x :: rest.set idx v = x :: rest
      rw [ih idx hv']

/-- Bounds of the edge walk: the cursor `i` never rises, never falls
below `last`, `j` never falls below `-1`, and the two cursors move in
lock step. -/
theorem walk_bounds (f : Nat → Nat) (s : List Nat) (last : Int)
    (h : List Nat) : ∀ i j : Int, last ≤ i → -1 ≤ j →
    last ≤ (walk f s last h i j).1 ∧ (walk f s last h i j).1 ≤ i ∧
      -1 ≤ (walk f s last h i j).2 ∧
      i - (walk f s last h i j).1 = j - (walk f s last h i j).2 := by
  intro i j hli hj
  generalize hn : (i - last).toNat = n
  induction n generalizing i j with
  | zero =>
    have hni : ¬ last < i := by omega
    rw [walk_eq, if_neg (fun hc => hni hc.1)]
    refine ⟨?_, ?_, ?_, ?_⟩ <;> simp <;> omega
  | succ n ih =>
    by_cases hc : last < i ∧ 0 ≤ j ∧ cAt s i = f (cAt h j)
    · rw [walk_eq, if_pos hc]
      obtain ⟨a, b, c, d⟩ := ih (i - 1) (j - 1) (by omega) (by omega)
        (by omega)
      exact ⟨a, by omega, c, by omega⟩
    · rw [walk_eq, if_neg hc]
      refine ⟨?_, ?_, ?_, ?_⟩ <;> simp <;> omega

/-- If the walk takes its first step, the final `i` drops by at least
one. -/
theorem walk_progress (f : Nat → Nat) (s : List Nat) (last : Int)
    (h : List Nat) (i j : Int)
    (hc : last < i ∧ 0 ≤ j ∧ cAt s i = f (cAt h j)) :
    (walk f s last h i j).1 ≤ i - 1 := by
  rw [walk_eq, if_pos hc]
  exact (walk_bounds f s last h (i - 1) (j - 1) (by omega) (by omega)).2.1

theorem treeInv_edges {n : CertNode} (h : TreeInv n) :
    ∀ c ∈ n.next, c.last < c.first := by
  cases h with
  | mk _ e hd ch => exact e

theorem treeInv_heads {n : CertNode} (h : TreeInv n) :
    (n.next.map headChar).Nodup := by
  cases h with
  | mk _ e hd ch => exact hd

theorem treeInv_children {n : CertNode} (h : TreeInv n) :
    ∀ c ∈ n.next, TreeInv c := by
  cases h with
  | mk _ e hd ch => exact ch

/-- The invariant only mentions the children, so it transfers between
nodes with the same `next`. -/
theorem treeInv_same_next {a b : CertNode} (h : TreeInv a)
    (hn : b.next = a.next) : TreeInv b := by
  refine TreeInv.mk b ?_ ?_ ?_
  · rw [hn]; exact treeInv_edges h
  · rw [hn]; exact treeInv_heads h
  · rw [hn]; exact treeInv_children h

theorem treeInv_leaf {b : CertNode} (h : b.next = []) : TreeInv b := by
  refine TreeInv.mk b ?_ ?_ ?_ <;> simp [h]

/-- Replacing a child by one with the same head byte, a non-empty edge
and a valid subtree preserves the invariant. -/
theorem treeInv_set_child {node : CertNode} (hinv : TreeInv node)
    (idx : Nat) (cn cn' : CertNode) (hidx : node.next[idx]? = some cn)
    (hch : TreeInv cn') (hhead : headChar cn' = headChar cn)
    (hedge : cn'.last < cn'.first) :
    TreeInv { node with next := node.next.set idx cn' } := by
  refine TreeInv.mk _ ?_ ?_ ?_
  · intro x hx
    rcases List.mem_or_eq_of_mem_set hx with hmem | heq
    · exact treeInv_edges hinv x hmem
    · subst heq; exact hedge
  · show ((node.next.set idx cn').map headChar).Nodup
    rw [List.map_set, hhead]
    have hg : (node.next.map headChar)[idx]? = some (headChar cn) := by
      rw [List.getElem?_map, hidx]
      rfl
    rw [set_getElem?_self_gen _ idx _ hg]
    exact treeInv_heads hinv
  · intro x hx
    rcases List.mem_or_eq_of_mem_set hx with hmem | heq
    · exact treeInv_children hinv x hmem
    · subst heq; exact hch

/-- Appending a child whose head byte is new preserves the invariant. -/
theorem treeInv_append_new {node : CertNode} (hinv : TreeInv node)
    (nn : CertNode) (hch : TreeInv nn) (hedge : nn.last < nn.first)
    (hhead : ∀ x ∈ node.next, headChar x ≠ headChar nn) :
    TreeInv { node with next := node.next ++ [nn] } := by
  refine TreeInv.mk _ ?_ ?_ ?_
  · intro x hx
    rcases List.mem_append.mp hx with hmem | hmem
    · exact treeInv_edges hinv x hmem
    · rw [List.mem_singleton.mp hmem]; exact hedge
  · show ((node.next ++ [nn]).map headChar).Nodup
    rw [List.map_append]
    rw [List.nodup_append]
    refine ⟨treeInv_heads hinv, by simp, ?_⟩
    intro a ha hb
    obtain ⟨x, hx, hxa⟩ := List.mem_map.mp ha
    have hab : a = headChar nn := by simpa using hb
    exact hhead x hx (hxa ▸ hab ▸ rfl)
  · intro x hx
    rcases List.mem_append.mp hx with hmem | hmem
    · exact treeInv_children hinv x hmem
    · rw [List.mem_singleton.mp hmem]; exact hch

/-- Insertion preserves the tree invariant and never changes the
receiving node's `str`, `first` or `last`. -/
theorem add_cert_node_inv (fuel : Nat) :
    ∀ (node : CertNode) (ctx : Nat) (h : List Nat) (offset : Int)
      (node' : CertNode), TreeInv node → 0 ≤ offset →
      cert_lookup_tree_add_cert_node fuel node ctx h offset = some node' →
      TreeInv node' ∧ node'.str = node.str ∧ node'.first = node.first ∧
        node'.last = node.last := by
  induction fuel with
  | zero =>
    intro node ctx h offset node' _ _ heq
    cases heq
  | succ n ih =>
    intro node ctx h offset node' hinv hoff heq
    simp only [cert_lookup_tree_add_cert_node] at heq
    rcases hfc : findChild (cAt h offset) node.next with _ | ⟨idx, cn⟩
    · simp only [hfc] at heq
      by_cases hstar : cAt h offset = 42
      · rw [if_pos hstar] at heq
        have hnode := Option.some.inj heq
        subst hnode
        exact ⟨treeInv_same_next hinv rfl, rfl, rfl, rfl⟩
      · rw [if_neg hstar] at heq
        have hnode := Option.some.inj heq
        subst hnode
        obtain ⟨hsle, hsge, -⟩ := scanStar_spec h offset (by omega)
        have hslt : scanStar h offset ≤ offset - 1 := by
          rw [scanStar_eq, if_pos ⟨hoff, hstar⟩]
          obtain ⟨h1, -, -⟩ := scanStar_spec h (offset - 1) (by omega)
          omega
        refine ⟨treeInv_append_new hinv _ (treeInv_leaf rfl) (by
            show scanStar h offset < offset
            omega) ?_, rfl, rfl, rfl⟩
        intro x hx
        have := findChild_none_heads _ _ hfc x hx
        simpa [headChar, cAt, hoff] using this
    · simp only [hfc] at heq
      obtain ⟨hg, hhd⟩ := findChild_some _ _ idx cn hfc
      have hmem : cn ∈ node.next := getElem?_mem_list hg
      have hedge : cn.last < cn.first := treeInv_edges hinv cn hmem
      have hchInv : TreeInv cn := treeInv_children hinv cn hmem
      have hentry : cn.last < cn.first ∧ 0 ≤ offset ∧
          cAt cn.str cn.first = id (cAt h offset) := by
        refine ⟨hedge, hoff, ?_⟩
        simpa [headChar] using hhd
      obtain ⟨hb1, hb2, hb3, hb4⟩ := walk_bounds id cn.str cn.last h
        cn.first offset (le_of_lt hedge) (by omega)
      have hprog := walk_progress id cn.str cn.last h cn.first offset hentry
      by_cases hB1 : (walk id cn.str cn.last h cn.first offset).1 = cn.last
      · rw [if_pos hB1] at heq
        by_cases hj : (walk id cn.str cn.last h cn.first offset).2 = -1
        · rw [if_pos hj] at heq
          by_cases hss : cn.ssl_ctx.isSome = true
          · rw [if_pos hss] at heq
            have hnode := Option.some.inj heq
            subst hnode
            exact ⟨treeInv_set_child hinv idx cn cn hg hchInv rfl hedge,
              rfl, rfl, rfl⟩
          · rw [if_neg hss] at heq
            have hnode := Option.some.inj heq
            subst hnode
            exact ⟨treeInv_set_child hinv idx cn _ hg
              (treeInv_same_next hchInv rfl) rfl hedge, rfl, rfl, rfl⟩
        · rw [if_neg hj] at heq
          rcases hrec : cert_lookup_tree_add_cert_node n cn ctx h
              (walk id cn.str cn.last h cn.first offset).2 with _ | cn2
          · rw [hrec] at heq
            exact Option.noConfusion heq
          · rw [hrec] at heq
            have hnode := Option.some.inj heq
            subst hnode
            obtain ⟨hi1, hi2, hi3, hi4⟩ := ih cn ctx h _ cn2 hchInv
              (by omega) hrec
            refine ⟨treeInv_set_child hinv idx cn cn2 hg hi1 ?_ ?_,
              rfl, rfl, rfl⟩
            · show cAt cn2.str cn2.first = cAt cn.str cn.first
              rw [hi2, hi3]
            · rw [hi3, hi4]
              exact hedge
      · rw [if_neg hB1] at heq
        have hlt1 : cn.last < (walk id cn.str cn.last h cn.first offset).1 := by
          rcases lt_or_eq_of_le hb1 with hlt | heqv
          · exact hlt
          · exact absurd heqv.symm hB1
        have hinv2 : ∀ b : CertNode,
            b.next = [⟨cn.str, (walk id cn.str cn.last h cn.first offset).1,
              cn.last, cn.ssl_ctx, cn.wildcard_certs, cn.next⟩] →
            TreeInv b := by
          intro b hb
          refine TreeInv.mk b ?_ ?_ ?_
          · intro x hx
            rw [hb, List.mem_singleton] at hx
            subst hx
            exact hlt1
          · rw [hb]
            simp
          · intro x hx
            rw [hb, List.mem_singleton] at hx
            subst hx
            exact treeInv_same_next hchInv rfl
        by_cases hj : (walk id cn.str cn.last h cn.first offset).2 = -1
        · rw [if_pos hj] at heq
          have hnode := Option.some.inj heq
          subst hnode
          exact ⟨treeInv_set_child hinv idx cn _ hg (hinv2 _ rfl) rfl
            (by show (walk id cn.str cn.last h cn.first offset).1 < cn.first
                omega), rfl, rfl, rfl⟩
        · rw [if_neg hj] at heq
          rcases hrec : cert_lookup_tree_add_cert_node n
              { str := cn.str, first := cn.first,
                last := (walk id cn.str cn.last h cn.first offset).1,
                ssl_ctx := none, wildcard_certs := [],
                next := [⟨cn.str,
                  (walk id cn.str cn.last h cn.first offset).1, cn.last,
                  cn.ssl_ctx, cn.wildcard_certs, cn.next⟩] } ctx h
              (walk id cn.str cn.last h cn.first offset).2 with _ | cn3
          · rw [hrec] at heq
            exact Option.noConfusion heq
          · rw [hrec] at heq
            have hnode := Option.some.inj heq
            subst hnode
            obtain ⟨hi1, hi2, hi3, hi4⟩ := ih _ ctx h _ cn3 (hinv2 _ rfl)
              (by omega) hrec
            refine ⟨treeInv_set_child hinv idx cn cn3 hg hi1 ?_ ?_,
              rfl, rfl, rfl⟩
            · show cAt cn3.str cn3.first = cAt cn.str cn.first
              rw [hi2, hi3]
            · rw [hi3, hi4]
              show (walk id cn.str cn.last h cn.first offset).1 < cn.first
              omega

theorem treeInv_new : TreeInv cert_lookup_tree_new.root :=
  treeInv_leaf rfl

/-- The public insertion preserves the invariant. -/
theorem add_cert_inv (lt : CertLookupTree) (ctx : Nat) (h : List Nat)
    (hinv : TreeInv lt.root) :
    TreeInv (cert_lookup_tree_add_cert lt ctx h).root := by
  unfold cert_lookup_tree_add_cert
  by_cases hlen : h.length = 0
  · rw [if_pos hlen]
    exact hinv
  · rw [if_neg hlen]
    rcases hadd : cert_lookup_tree_add_cert_node (h.length + 2) lt.root ctx
        (h.map lowcase) ((h.length : Int) - 1) with _ | root'
    · simp only [hadd]
      exact hinv
    · simp only [hadd]
      exact (add_cert_node_inv (h.length + 2) lt.root ctx (h.map lowcase)
        ((h.length : Int) - 1) root' hinv (by omega) hadd).1

/-- Every tree built by insertions from a fresh tree satisfies the
invariant. -/
theorem treeInv_buildTree (ops : List (List Nat × Nat)) :
    TreeInv (buildTree ops).root := by
  suffices hgen : ∀ t : CertLookupTree, TreeInv t.root →
      TreeInv (ops.foldl
        (fun t p => cert_lookup_tree_add_cert t p.2 p.1) t).root by
    exact hgen cert_lookup_tree_new treeInv_new
  induction ops with
  | nil => intro t ht; exact ht
  | cons op rest ih =>
    intro t ht
    exact ih (cert_lookup_tree_add_cert t op.2 op.1)
      (add_cert_inv t op.2 op.1 ht)

/-- Claim C8: after every sequence of insertions starting from a fresh
tree, at every node the child edges begin with pairwise distinct bytes
(so at most one child matches any input byte), and every child edge is
non-empty; the invariant is preserved by Case A node creation and Case
B2 node splitting alike. -/
theorem c8_child_heads_distinct (ops : List (List Nat × Nat)) :
    TreeInv (buildTree ops).root :=
  treeInv_buildTree ops

/-- A node whose only child is the Case-B2 split-off tail of `cn` at
position `m` satisfies the invariant. -/
theorem treeInv_split (cn : CertNode) (hchInv : TreeInv cn) (m : Int)
    (hlt : cn.last < m) :
    ∀ b : CertNode,
      b.next = [⟨cn.str, m, cn.last, cn.ssl_ctx, cn.wildcard_certs,
        cn.next⟩] → TreeInv b := by
  intro b hb
  refine TreeInv.mk b ?_ ?_ ?_
  · intro x hx
    rw [hb, List.mem_singleton] at hx
    subst hx
    exact hlt
  · rw [hb]
    simp
  · intro x hx
    rw [hb, List.mem_singleton] at hx
    subst hx
    exact treeInv_same_next hchInv rfl

/-- The full Case-B2 replacement node (narrowed edge, cleared wildcard
list, the split-off tail as only child) satisfies the invariant. -/
theorem treeInv_split2 (cn : CertNode) (hchInv : TreeInv cn) (m : Int)
    (hlt : cn.last < m) :
    TreeInv { str := cn.str, first := cn.first, last := m,
              ssl_ctx := none, wildcard_certs := [],
              next := [⟨cn.str, m, cn.last, cn.ssl_ctx,
                cn.wildcard_certs, cn.next⟩] } :=
  treeInv_split cn hchInv m hlt _ rfl

/-- On an invariant tree the recursive insertion never runs out of fuel
when given `offset + 1` units: every recursive call strictly decreases
the offset. -/
theorem add_cert_node_isSome (fuel : Nat) :
    ∀ (node : CertNode) (ctx : Nat) (h : List Nat) (offset : Int),
      TreeInv node → 0 ≤ offset → offset + 1 ≤ (fuel : Int) →
      (cert_lookup_tree_add_cert_node fuel node ctx h offset).isSome
        = true := by
  induction fuel with
  | zero =>
    intro node ctx h offset _ hoff hfuel
    exfalso
    simp only [Nat.cast_zero] at hfuel
    omega
  | succ n ih =>
    intro node ctx h offset hinv hoff hfuel
    simp only [cert_lookup_tree_add_cert_node]
    rcases hfc : findChild (cAt h offset) node.next with _ | ⟨idx, cn⟩
    · simp only [hfc]
      split <;> rfl
    · simp only [hfc]
      obtain ⟨hg, hhd⟩ := findChild_some _ _ idx cn hfc
      have hmem : cn ∈ node.next := getElem?_mem_list hg
      have hedge : cn.last < cn.first := treeInv_edges hinv cn hmem
      have hchInv : TreeInv cn := treeInv_children hinv cn hmem
      have hentry : cn.last < cn.first ∧ 0 ≤ offset ∧
          cAt cn.str cn.first = id (cAt h offset) := by
        refine ⟨hedge, hoff, ?_⟩
        simpa [headChar] using hhd
      obtain ⟨hb1, hb2, hb3, hb4⟩ := walk_bounds id cn.str cn.last h
        cn.first offset (le_of_lt hedge) (by omega)
      have hprog := walk_progress id cn.str cn.last h cn.first offset hentry
      have hfuel2 : ∀ m : Int, m ≤ offset - 1 → 0 ≤ m → m + 1 ≤ (n : Int) := by
        intro m h1 h2
        omega
      by_cases hB1 : (walk id cn.str cn.last h cn.first offset).1 = cn.last
      · rw [if_pos hB1]
        by_cases hj : (walk id cn.str cn.last h cn.first offset).2 = -1
        · rw [if_pos hj]
          split <;> rfl
        · rw [if_neg hj]
          have hle : (walk id cn.str cn.last h cn.first offset).2
              ≤ offset - 1 := by omega
          have hs := ih cn ctx h _ hchInv (by omega)
            (hfuel2 _ hle (by omega))
          rcases hrec : cert_lookup_tree_add_cert_node n cn ctx h
              (walk id cn.str cn.last h cn.first offset).2 with _ | cn2
          · rw [hrec] at hs
            simp at hs
          · rfl
      · rw [if_neg hB1]
        have hlt1 : cn.last <
            (walk id cn.str cn.last h cn.first offset).1 := by
          rcases lt_or_eq_of_le hb1 with hlt | heqv
          · exact hlt
          · exact absurd heqv.symm hB1
        by_cases hj : (walk id cn.str cn.last h cn.first offset).2 = -1
        · rw [if_pos hj]
          rfl
        · rw [if_neg hj]
          have hle : (walk id cn.str cn.last h cn.first offset).2
              ≤ offset - 1 := by omega
          have hs := ih _ ctx h _ (treeInv_split2 cn hchInv _ hlt1)
            (by omega) (hfuel2 _ hle (by omega))
          rcases hrec : cert_lookup_tree_add_cert_node n
              { str := cn.str, first := cn.first,
                last := (walk id cn.str cn.last h cn.first offset).1,
                ssl_ctx := none, wildcard_certs := [],
                next := [⟨cn.str,
                  (walk id cn.str cn.last h cn.first offset).1, cn.last,
                  cn.ssl_ctx, cn.wildcard_certs, cn.next⟩] } ctx h
              (walk id cn.str cn.last h cn.first offset).2 with _ | cn3
          · rw [hrec] at hs
            simp at hs
          · rfl

/-- On an invariant subtree whose root has a non-empty edge, the
recursive lookup never runs out of fuel when given `offset + 1` units. -/
theorem lookup_node_isSome_child (fuel : Nat) :
    ∀ (node : CertNode) (h : List Nat) (offset : Int),
      TreeInv node → node.last < node.first → 0 ≤ offset →
      offset + 1 ≤ (fuel : Int) →
      (cert_lookup_tree_lookup_node fuel node h offset).isSome = true := by
  induction fuel with
  | zero =>
    intro node h offset _ _ hoff hfuel
    exfalso
    simp only [Nat.cast_zero] at hfuel
    omega
  | succ n ih =>
    intro node h offset hinv hfl hoff hfuel
    simp only [cert_lookup_tree_lookup_node]
    by_cases h1 : (walk lowcase node.str node.last h node.first offset).1
        ≠ node.last
    · rw [if_pos h1]
      rfl
    · rw [if_neg h1]
      by_cases h2 : (walk lowcase node.str node.last h node.first offset).2
          = -1
      · rw [if_pos h2]
        rfl
      · rw [if_neg h2]
        rcases hfw : node.wildcard_certs.find?
            (fun wc => tls_hostname_match wc.1 h) with _ | wc
        · simp only [hfw]
          rcases hfc : findChild
              (lowcase (cAt h
                (walk lowcase node.str node.last h node.first offset).2))
              node.next with _ | q
          · simp only [hfc]
            rfl
          · simp only [hfc]
            obtain ⟨hg, -⟩ := findChild_some _ _ q.1 q.2 (by rw [hfc])
            have hmem : q.2 ∈ node.next := getElem?_mem_list hg
            obtain ⟨hb1, hb2, hb3, hb4⟩ := walk_bounds lowcase node.str
              node.last h node.first offset (le_of_lt hfl) (by omega)
            have hp1 : (walk lowcase node.str node.last h node.first
                offset).1 = node.last := by
              by_contra hcon
              exact h1 hcon
            exact ih q.2 h _ (treeInv_children hinv q.2 hmem)
              (treeInv_edges hinv q.2 hmem) (by omega) (by omega)
        · simp only [hfw]
          rfl

/-- On an invariant tree the recursive lookup never runs out of fuel
when given `offset + 2` units, provided the start node has a
non-inverted edge (the root has an empty edge). -/
theorem lookup_node_isSome_root (fuel : Nat) (node : CertNode)
    (h : List Nat) (offset : Int) (hinv : TreeInv node)
    (hfl : node.last ≤ node.first) (hoff : -1 ≤ offset)
    (hfuel : offset + 2 ≤ (fuel : Int)) :
    (cert_lookup_tree_lookup_node fuel node h offset).isSome = true := by
  rcases fuel with _ | n
  · exfalso
    simp only [Nat.cast_zero] at hfuel
    omega
  · simp only [cert_lookup_tree_lookup_node]
    by_cases h1 : (walk lowcase node.str node.last h node.first offset).1
        ≠ node.last
    · rw [if_pos h1]
      rfl
    · rw [if_neg h1]
      by_cases h2 : (walk lowcase node.str node.last h node.first offset).2
          = -1
      · rw [if_pos h2]
        rfl
      · rw [if_neg h2]
        rcases hfw : node.wildcard_certs.find?
            (fun wc => tls_hostname_match wc.1 h) with _ | wc
        · simp only [hfw]
          rcases hfc : findChild
              (lowcase (cAt h
                (walk lowcase node.str node.last h node.first offset).2))
              node.next with _ | q
          · simp only [hfc]
            rfl
          · simp only [hfc]
            obtain ⟨hg, -⟩ := findChild_some _ _ q.1 q.2 (by rw [hfc])
            have hmem : q.2 ∈ node.next := getElem?_mem_list hg
            obtain ⟨hb1, hb2, hb3, hb4⟩ := walk_bounds lowcase node.str
              node.last h node.first offset hfl (by omega)
            exact lookup_node_isSome_child n q.2 h _
              (treeInv_children hinv q.2 hmem)
              (treeInv_edges hinv q.2 hmem) (by omega) (by omega)
        · simp only [hfw]
          rfl

/-- The public insertion never changes the root's edge indices. -/
theorem add_cert_root_fields (lt : CertLookupTree) (ctx : Nat)
    (h : List Nat) (hinv : TreeInv lt.root) :
    (cert_lookup_tree_add_cert lt ctx h).root.first = lt.root.first ∧
      (cert_lookup_tree_add_cert lt ctx h).root.last = lt.root.last := by
  unfold cert_lookup_tree_add_cert
  by_cases hlen : h.length = 0
  · rw [if_pos hlen]
    exact ⟨rfl, rfl⟩
  · rw [if_neg hlen]
    rcases hadd : cert_lookup_tree_add_cert_node (h.length + 2) lt.root ctx
        (h.map lowcase) ((h.length : Int) - 1) with _ | root'
    · simp only [hadd]
      exact ⟨trivial, trivial⟩
    · simp only [hadd]
      obtain ⟨-, -, h2, h3⟩ := add_cert_node_inv (h.length + 2) lt.root ctx
        (h.map lowcase) ((h.length : Int) - 1) root' hinv (by omega) hadd
      exact ⟨h2, h3⟩

/-- The root of every tree built from a fresh tree keeps its empty edge
(`first = last = 0`). -/
theorem buildTree_root_flat (ops : List (List Nat × Nat)) :
    (buildTree ops).root.last ≤ (buildTree ops).root.first := by
  suffices hgen : ∀ t : CertLookupTree, TreeInv t.root →
      t.root.last ≤ t.root.first →
      (ops.foldl (fun t p => cert_lookup_tree_add_cert t p.2 p.1)
        t).root.last ≤
        (ops.foldl (fun t p => cert_lookup_tree_add_cert t p.2 p.1)
          t).root.first by
    exact hgen cert_lookup_tree_new treeInv_new (le_refl 0)
  induction ops with
  | nil => intro t ht hflat; exact hflat
  | cons op rest ih =>
    intro t ht hflat
    obtain ⟨h1, h2⟩ := add_cert_root_fields t op.2 op.1 ht
    exact ih (cert_lookup_tree_add_cert t op.2 op.1)
      (add_cert_inv t op.2 op.1 ht) (by rw [h1, h2]; exact hflat)

/-- Claim C10: on every tree built by insertions from a fresh tree, both
the recursive insertion and the recursive lookup terminate on every
non-empty hostname: with the standard fuel `len + 2` (every recursive
call strictly decreases the offset, which is bounded below by `-1`,
because every non-root edge is non-empty) neither function runs out of
fuel. -/
theorem c10_recursion_terminates (ops : List (List Nat × Nat))
    (H : List Nat) (ctx : Nat) (hne : H ≠ []) :
    (cert_lookup_tree_add_cert_node (H.length + 2) (buildTree ops).root ctx
        (H.map lowcase) ((H.length : Int) - 1)).isSome = true ∧
      (cert_lookup_tree_lookup_node (H.length + 2) (buildTree ops).root H
        ((H.length : Int) - 1)).isSome = true := by
  have hlen : H.length ≠ 0 := fun hc => hne (List.length_eq_zero.mp hc)
  constructor
  · exact add_cert_node_isSome (H.length + 2) (buildTree ops).root ctx
      (H.map lowcase) ((H.length : Int) - 1) (treeInv_buildTree ops)
      (by omega) (by push_cast; omega)
  · exact lookup_node_isSome_root (H.length + 2) (buildTree ops).root H
      ((H.length : Int) - 1) (treeInv_buildTree ops)
      (buildTree_root_flat ops) (by omega) (by push_cast; omega)

/-- Witness for C10 on a one-insertion tree and the hostname `b`. -/
theorem c10_recursion_terminates_witness :
    bytes "b" ≠ [] ∧
      ((cert_lookup_tree_add_cert_node ((bytes "b").length + 2)
          (buildTree [(bytes "a", 1)]).root 2 ((bytes "b").map lowcase)
          (((bytes "b").length : Int) - 1)).isSome = true ∧
        (cert_lookup_tree_lookup_node ((bytes "b").length + 2)
          (buildTree [(bytes "a", 1)]).root (bytes "b")
          (((bytes "b").length : Int) - 1)).isSome = true) :=
  ⟨by decide, c10_recursion_terminates [(bytes "a", 1)] (bytes "b") 2
    (by decide)⟩

/-- A case-insensitive prefix check fails when the folded head bytes
differ. -/
theorem istartsWith_head_ne (a : Nat) (as : List Nat) (b : Nat)
    (bs : List Nat) (hab : lowcase a ≠ lowcase b) :
    istartsWith (a :: as) (b :: bs) = false := by
  simp only [istartsWith, List.length_cons, List.take_succ_cons,
    List.map_cons]
  rw [beq_eq_false_iff_ne]
  intro hc
  injection hc with h1 _
  exact hab h1

theorem lowcase_46 : lowcase 46 = 46 := by decide

/-- A list of lowercase bytes containing `46 :: r` after a lowercase
prefix is a fixed point of folding. -/
theorem map_lowcase_fixed_append (x r : List Nat)
    (hx : x.map lowcase = x) (hr : r.map lowcase = r) :
    (x ++ 46 :: r).map lowcase = x ++ 46 :: r := by
  rw [List.map_append, List.map_cons, hx, hr, lowcase_46]

/-- Claim C5 core: for a pattern whose left-most label is exactly the
wildcard (`*.d.e`, at least two dots), a lowercase hostname matches
exactly when it is `x.d.e` with a non-empty dot-free left-most label
`x`. -/
theorem c5_leftmost_wildcard_iff (d e H : List Nat)
    (hd : d.map lowcase = d) (he : e.map lowcase = e)
    (hH : H.map lowcase = H) :
    (tls_hostname_match (42 :: 46 :: (d ++ 46 :: e)) H = true ↔
      ∃ x, x ≠ [] ∧ 46 ∉ x ∧ H = x ++ 46 :: (d ++ 46 :: e)) := by
  have hP42 : strchr 42 (42 :: 46 :: (d ++ 46 :: e)) = some 0 := by
    simp [strchr]
  have hP46 : strchr 46 (42 :: 46 :: (d ++ 46 :: e)) = some 1 := by
    simp [strchr]
  have hP2 : (strchr 46 (d ++ 46 :: e)).isNone = false := by
    have hsm := strchr_isSome_of_mem 46 (d ++ 46 :: e) (by simp)
    rcases hs2 : strchr 46 (d ++ 46 :: e) with _ | k
    · rw [hs2] at hsm
      cases hsm
    · rfl
  have hxn : istartsWith (42 :: 46 :: (d ++ 46 :: e)) [120, 110, 45, 45]
      = false :=
    istartsWith_head_ne 42 _ 120 _ (by decide)
  have hdec : decide ((1 : Nat) < 0) = false := by decide
  have hlow : (46 :: (d ++ 46 :: e)).map lowcase = 46 :: (d ++ 46 :: e) :=
    map_lowcase_fixed_append [] (d ++ 46 :: e) rfl
      (map_lowcase_fixed_append d e hd he)
  constructor
  · intro hm
    simp only [tls_hostname_match, hP42, hP46, hP2, hxn, hdec,
      Bool.or_self, Bool.or_false, Bool.false_eq_true, if_false,
      List.drop_succ_cons, List.drop_zero, List.take_succ_cons,
      List.take_zero] at hm
    rcases hH46 : strchr 46 H with _ | hnL
    · simp only [hH46] at hm
      cases hm
    · simp only [hH46] at hm
      obtain ⟨hnb, -, hnmin⟩ := strchr_some 46 H hnL hH46
      cases hsb : strieq (46 :: (d ++ 46 :: e)) (H.drop hnL) with
      | false => simp [hsb] at hm
      | true =>
        simp only [hsb, Bool.not_true, Bool.false_eq_true, if_false] at hm
        by_cases h1 : hnL < 1
        · rw [if_pos h1] at hm
          cases hm
        · have heqdrop : H.drop hnL = 46 :: (d ++ 46 :: e) := by
            have hmap : (46 :: (d ++ 46 :: e)).map lowcase
                = (H.drop hnL).map lowcase := by
              have hsb2 := hsb
              simp only [strieq] at hsb2
              exact eq_of_beq hsb2
            rw [hlow] at hmap
            rw [List.map_drop, hH] at hmap
            exact hmap.symm
          refine ⟨H.take hnL, ?_, ?_, ?_⟩
          · have hlen : (H.take hnL).length = hnL := by
              simp [List.length_take]
              omega
            intro hc
            rw [hc] at hlen
            simp at hlen
            omega
          · intro hmem
            obtain ⟨k, hk, hkv⟩ := List.getElem_of_mem hmem
            have hkb : k < hnL := by
              have hk2 := hk
              simp [List.length_take] at hk2
              omega
            have hkb2 : k < H.length := by omega
            have hkH : H[k] = 46 := by
              rw [← hkv, List.getElem_take]
            apply hnmin k hkb
            rw [List.getD_eq_getElem?_getD, List.getElem?_eq_getElem
              (by omega : k < H.length), hkH]
            rfl
          · rw [← heqdrop, List.take_append_drop]
  · rintro ⟨x, hxne, hxdot, hHeq⟩
    subst hHeq
    have hH46 : strchr 46 (x ++ 46 :: (d ++ 46 :: e)) = some x.length :=
      strchr_dot_append x _ (fun b hb hc => hxdot (hc ▸ hb))
    have hdropx : (x ++ 46 :: (d ++ 46 :: e)).drop x.length
        = 46 :: (d ++ 46 :: e) := List.drop_left x _
    have hxpos : ¬ x.length < 1 := by
      have := List.length_pos.mpr hxne
      omega
    have hstr : strieq (46 :: (d ++ 46 :: e)) (46 :: (d ++ 46 :: e))
        = true := by
      simp [strieq]
    have hstarts2 : istartsWith ((x ++ 46 :: (d ++ 46 :: e)).take x.length)
        [] = true := by
      simp [istartsWith]
    have hends2 : iendsWith ((x ++ 46 :: (d ++ 46 :: e)).take x.length)
        [] = true := by
      simp [iendsWith]
    simp only [tls_hostname_match, hP42, hP46, hP2, hxn, hdec, hH46,
      List.drop_succ_cons, List.drop_zero, List.take_succ_cons,
      List.take_zero, hdropx, hstr, hstarts2, hends2, Bool.or_self,
      Bool.or_false, Bool.not_true, Bool.false_eq_true, if_false,
      if_neg hxpos, Bool.and_self]

/-- Witness for C5 at `P = *.d.e`, `H = a.d.e`. -/
theorem c5_leftmost_wildcard_iff_witness :
    ([100] : List Nat).map lowcase = [100] ∧
      ([101] : List Nat).map lowcase = [101] ∧
      (bytes "a.d.e").map lowcase = bytes "a.d.e" ∧
      (tls_hostname_match (42 :: 46 :: ([100] ++ 46 :: [101]))
          (bytes "a.d.e") = true ↔
        ∃ x, x ≠ [] ∧ 46 ∉ x ∧
          bytes "a.d.e" = x ++ 46 :: ([100] ++ 46 :: [101])) :=
  ⟨by decide, by decide, by decide,
    c5_leftmost_wildcard_iff [100] [101] (bytes "a.d.e") (by decide)
      (by decide) (by decide)⟩

/-- Inserting into a fresh root (Case A): a wildcard at the rightmost
byte lands in the root's wildcard list; otherwise a single child is
created whose edge stops just after the rightmost `'*'`. -/
theorem add_cert_node_fresh (m : Nat) (h : List Nat) (A : Nat)
    (offset : Int) :
    cert_lookup_tree_add_cert_node (m + 2) ⟨[], 0, 0, none, [], []⟩ A h
        offset =
      (if cAt h offset = 42 then
        some ⟨[], 0, 0, none, [(h, A)], []⟩
      else
        some ⟨[], 0, 0, none, [],
          [⟨h, offset, scanStar h offset,
            if scanStar h offset = -1 then some A else none,
            if scanStar h offset = -1 then [] else [(h, A)], []⟩]⟩) := by
  simp only [cert_lookup_tree_add_cert_node, findChild]
  split <;> rfl

/-- Inserting a wildcard byte at a childless node appends to its
wildcard list. -/
theorem add_cert_node_nochild_star (k : Nat) (node : CertNode) (B : Nat)
    (h : List Nat) (offset : Int) (hnx : node.next = [])
    (hstar : cAt h offset = 42) :
    cert_lookup_tree_add_cert_node (k + 1) node B h offset =
      some { node with
        wildcard_certs := node.wildcard_certs ++ [(h, B)] } := by
  simp only [cert_lookup_tree_add_cert_node, hnx, findChild]
  rw [if_pos hstar]

/-- Re-inserting the same non-wildcard-leading hostname into the
one-host tree either retains the exact context (no `'*'` in the
hostname) or appends a second wildcard entry to the single child. -/
theorem add_cert_node_repeat_nonstar (m : Nat) (h : List Nat) (A B : Nat)
    (offset : Int) (hoff : 0 ≤ offset) :
    cert_lookup_tree_add_cert_node (m + 2)
        ⟨[], 0, 0, none, [],
          [⟨h, offset, scanStar h offset,
            if scanStar h offset = -1 then some A else none,
            if scanStar h offset = -1 then [] else [(h, A)], []⟩]⟩ B h
        offset =
      some ⟨[], 0, 0, none, [],
        [⟨h, offset, scanStar h offset,
          if scanStar h offset = -1 then some A else none,
          if scanStar h offset = -1 then [] else [(h, A), (h, B)],
          []⟩]⟩ := by
  obtain ⟨hle, hge, hspec⟩ := scanStar_spec h offset (by omega)
  have hwalk : walk id h (scanStar h offset) h offset offset
      = (scanStar h offset, scanStar h offset) :=
    walk_self id h h (fun k _ => rfl) (scanStar h offset) offset hle hge
  simp only [cert_lookup_tree_add_cert_node, findChild, headChar,
    eq_self_iff_true, if_true, hwalk]
  by_cases hj : scanStar h offset = -1
  · simp [hj]
  · rw [if_neg hj]
    have hstar2 : cAt h (scanStar h offset) = 42 := by
      rcases hspec with hc | ⟨-, hc⟩
      · exact absurd hc hj
      · exact hc
    rw [if_pos hstar2]
    simp [hj, List.set]

/-- Unfolding the lookup at a node with the root's empty edge
(`first = last = 0`) and a non-exhausted hostname. -/
theorem lookup_node_root_eq (m : Nat) (node : CertNode) (H : List Nat)
    (offset : Int) (h0 : node.first = 0) (h1 : node.last = 0)
    (hoff : 0 ≤ offset) :
    cert_lookup_tree_lookup_node (m + 2) node H offset =
      (match node.wildcard_certs.find?
          (fun wc => tls_hostname_match wc.1 H) with
      | some wc => some (some wc.2)
      | none =>
        match findChild (lowcase (cAt H offset)) node.next with
        | some q => cert_lookup_tree_lookup_node (m + 1) q.2 H offset
        | none => some none) := by
  have hw : walk lowcase node.str node.last H node.first offset
      = (node.first, offset) := by
    rw [walk_eq, if_neg]
    intro hc
    rw [h1, h0] at hc
    exact absurd hc.1 (lt_irrefl 0)
  have hne : ¬ (offset = -1) := by omega
  simp only [cert_lookup_tree_lookup_node, hw]
  rw [if_neg (by simp [h0, h1]), if_neg hne]

/-- Looking up the hostname whose lowercased copy is the whole edge of
an exact leaf returns the stored context. -/
theorem lookup_node_exact (k : Nat) (h H : List Nat) (A : Nat)
    (offset : Int) (hmap : h = H.map lowcase) (hoff : -1 ≤ offset) :
    cert_lookup_tree_lookup_node (k + 1) ⟨h, offset, -1, some A, [], []⟩
        H offset = some (some A) := by
  have hw : walk lowcase h (-1) H offset offset = (-1, -1) :=
    walk_self lowcase h H
      (fun j _ => by rw [hmap]; exact cAt_map_lowcase H j) (-1) offset
      hoff (by omega)
  simp only [cert_lookup_tree_lookup_node, hw]
  simp

/-- Looking up the hostname at a wildcard leaf whose wildcard list
starts with the hostname's own lowercased copy returns its context. -/
theorem lookup_node_wildcard (k : Nat) (h H : List Nat) (A B : Nat)
    (last offset : Int) (sctx : Option Nat) (hmap : h = H.map lowcase)
    (h0 : 0 ≤ last) (hle : last ≤ offset) :
    cert_lookup_tree_lookup_node (k + 1)
        ⟨h, offset, last, sctx, [(h, A), (h, B)], []⟩ H offset
      = some (some A) := by
  have hw : walk lowcase h last H offset offset = (last, last) :=
    walk_self lowcase h H
      (fun j _ => by rw [hmap]; exact cAt_map_lowcase H j) last offset
      hle (by omega)
  have hm : tls_hostname_match h H = true := by
    rw [hmap]
    exact tls_hostname_match_lower_self H
  have hne : ¬ (last = -1) := by omega
  simp only [cert_lookup_tree_lookup_node, hw]
  rw [if_neg (by simp), if_neg hne]
  simp [List.find?, hm]

/-- Claim C4, counterexample: inserting the empty hostname is a no-op,
so after "inserting" H = "" with A = 1 and again with B = 2 the lookup
of "" does not return A. -/
theorem c4_counterexample :
    cert_lookup_tree_lookup
      (cert_lookup_tree_add_cert
        (cert_lookup_tree_add_cert cert_lookup_tree_new 1 []) 2 []) []
      ≠ some 1 := by decide

/-- The root of the tree returned by the public insertion, when the
recursive insertion succeeds. -/
theorem add_cert_root_eq (lt : CertLookupTree) (ctx : Nat) (H : List Nat)
    (hlen0 : ¬ (H.length = 0)) (root' : CertNode)
    (hadd : cert_lookup_tree_add_cert_node (H.length + 2) lt.root ctx
      (H.map lowcase) ((H.length : Int) - 1) = some root') :
    (cert_lookup_tree_add_cert lt ctx H).root = root' := by
  unfold cert_lookup_tree_add_cert
  rw [if_neg hlen0]
  simp only [hadd]

/-- The lookup only reads the root. -/
theorem lookup_root_only (lt : CertLookupTree) (H : List Nat) :
    cert_lookup_tree_lookup lt H =
      match cert_lookup_tree_lookup_node (H.length + 2) lt.root H
          ((H.length : Int) - 1) with
      | some r => r
      | none => none := rfl

/-- Claim C4, amended: for every non-empty hostname H and contexts A
then B, inserting H with A and then inserting H again with B leaves the
binding at A: the second insertion does not overwrite an already-set
exact context (and a repeated wildcard hostname is appended after the
first entry, which wins), so lookup(H) returns A. -/
theorem c4_repeat_insert_first_wins (H : List Nat) (A B : Nat)
    (hne : H ≠ []) :
    cert_lookup_tree_lookup
      (cert_lookup_tree_add_cert
        (cert_lookup_tree_add_cert cert_lookup_tree_new A H) B H) H
      = some A := by
  have hlen : 0 < H.length := List.length_pos.mpr hne
  have hlen0 : ¬ (H.length = 0) := by omega
  have hoff : 0 ≤ (H.length : Int) - 1 := by
    have h1 : (1 : Int) ≤ (H.length : Int) := by exact_mod_cast hlen
    omega
  have hfuel : H.length + 2 = (H.length + 1) + 1 := rfl
  have hm : tls_hostname_match (H.map lowcase) H = true :=
    tls_hostname_match_lower_self H
  by_cases hstar : cAt (H.map lowcase) ((H.length : Int) - 1) = 42
  · have hr1 : (cert_lookup_tree_add_cert cert_lookup_tree_new A H).root
        = ⟨[], 0, 0, none, [(H.map lowcase, A)], []⟩ :=
      add_cert_root_eq cert_lookup_tree_new A H hlen0 _ (by
        show cert_lookup_tree_add_cert_node (H.length + 2)
          ⟨[], 0, 0, none, [], []⟩ A (H.map lowcase)
          ((H.length : Int) - 1) = _
        rw [add_cert_node_fresh H.length, if_pos hstar])
    have hr2 : (cert_lookup_tree_add_cert
        (cert_lookup_tree_add_cert cert_lookup_tree_new A H) B H).root
        = ⟨[], 0, 0, none,
            [(H.map lowcase, A), (H.map lowcase, B)], []⟩ :=
      add_cert_root_eq _ B H hlen0 _ (by
        rw [hr1, hfuel, add_cert_node_nochild_star (H.length + 1) _ B
          (H.map lowcase) ((H.length : Int) - 1) rfl hstar]
        rfl)
    rw [lookup_root_only, hr2,
      lookup_node_root_eq H.length _ H ((H.length : Int) - 1) rfl rfl
        hoff]
    simp [List.find?, hm]
  · have hr1 : (cert_lookup_tree_add_cert cert_lookup_tree_new A H).root
        = ⟨[], 0, 0, none, [],
            [⟨H.map lowcase, (H.length : Int) - 1,
              scanStar (H.map lowcase) ((H.length : Int) - 1),
              if scanStar (H.map lowcase) ((H.length : Int) - 1) = -1
                then some A else none,
              if scanStar (H.map lowcase) ((H.length : Int) - 1) = -1
                then [] else [(H.map lowcase, A)], []⟩]⟩ :=
      add_cert_root_eq cert_lookup_tree_new A H hlen0 _ (by
        show cert_lookup_tree_add_cert_node (H.length + 2)
          ⟨[], 0, 0, none, [], []⟩ A (H.map lowcase)
          ((H.length : Int) - 1) = _
        rw [add_cert_node_fresh H.length, if_neg hstar])
    have hr2 : (cert_lookup_tree_add_cert
        (cert_lookup_tree_add_cert cert_lookup_tree_new A H) B H).root
        = ⟨[], 0, 0, none, [],
            [⟨H.map lowcase, (H.length : Int) - 1,
              scanStar (H.map lowcase) ((H.length : Int) - 1),
              if scanStar (H.map lowcase) ((H.length : Int) - 1) = -1
                then some A else none,
              if scanStar (H.map lowcase) ((H.length : Int) - 1) = -1
                then [] else [(H.map lowcase, A), (H.map lowcase, B)],
              []⟩]⟩ :=
      add_cert_root_eq _ B H hlen0 _ (by
        rw [hr1, add_cert_node_repeat_nonstar H.length (H.map lowcase)
          A B ((H.length : Int) - 1) hoff])
    obtain ⟨hle, hge, hspec⟩ := scanStar_spec (H.map lowcase)
      ((H.length : Int) - 1) (by omega)
    rw [lookup_root_only, hr2,
      lookup_node_root_eq H.length _ H ((H.length : Int) - 1) rfl rfl
        hoff]
    have hhc : lowcase (cAt H ((H.length : Int) - 1))
        = cAt (H.map lowcase) ((H.length : Int) - 1) :=
      (cAt_map_lowcase H _).symm
    have hfc : findChild (lowcase (cAt H ((H.length : Int) - 1)))
        [⟨H.map lowcase, (H.length : Int) - 1,
          scanStar (H.map lowcase) ((H.length : Int) - 1),
          if scanStar (H.map lowcase) ((H.length : Int) - 1) = -1
            then some A else none,
          if scanStar (H.map lowcase) ((H.length : Int) - 1) = -1
            then [] else [(H.map lowcase, A), (H.map lowcase, B)], []⟩]
        = some (0, ⟨H.map lowcase, (H.length : Int) - 1,
          scanStar (H.map lowcase) ((H.length : Int) - 1),
          if scanStar (H.map lowcase) ((H.length : Int) - 1) = -1
            then some A else none,
          if scanStar (H.map lowcase) ((H.length : Int) - 1) = -1
            then [] else [(H.map lowcase, A), (H.map lowcase, B)],
          []⟩) := by
      simp [findChild, headChar, hhc]
    simp only [List.find?, hfc]
    by_cases hj : scanStar (H.map lowcase) ((H.length : Int) - 1) = -1
    · simp only [hj, eq_self_iff_true, if_true]
      rw [lookup_node_exact H.length (H.map lowcase) H A
        ((H.length : Int) - 1) rfl (by omega)]
    · rw [if_neg hj, if_neg hj,
        lookup_node_wildcard H.length (H.map lowcase) H A B
          (scanStar (H.map lowcase) ((H.length : Int) - 1))
          ((H.length : Int) - 1) none rfl (by
            rcases hspec with hc | ⟨hc, -⟩
            · exact absurd hc hj
            · exact hc) hle]

/-- Witness for the amended C4 at `H = x.com`, `A = 1`, `B = 2`. -/
theorem c4_repeat_insert_first_wins_witness :
    bytes "x.com" ≠ [] ∧
      cert_lookup_tree_lookup
        (cert_lookup_tree_add_cert
          (cert_lookup_tree_add_cert cert_lookup_tree_new 1
            (bytes "x.com")) 2 (bytes "x.com")) (bytes "x.com")
        = some 1 :=
  ⟨by decide, c4_repeat_insert_first_wins (bytes "x.com") 1 2 (by decide)⟩
